import Mathlib

/-!
Verification of the template materialization engine of
ultimate-framework-factory.

The development shallowly embeds the substitution transform
(lib/transforms/regex-match.js, class RegexMatch), the extension
classifier and copy dispatch (lib/utils/file-util.js, FileUtil), and
the recursive directory enumeration loops.  Text content is modelled
as List Char; variable sets keep JavaScript object insertion order as
association lists.  The variable-name test new RegExp(key).test(token)
is embedded as substring containment, which is exact for names that
contain no regex metacharacters (the CLI derives names from Make-style
NAME=value tokens); replacement values are expanded with the dollar
patterns of String.replace (no capture groups arise, because token
strings contain no parentheses).
-/

/-- A character accepted inside a default-pattern placeholder: the class
[A-Z0-9] of the default regex. -/
def isTokenChar (c : Char) : Bool :=
  ('A' ≤ c && c ≤ 'Z') || ('0' ≤ c && c ≤ '9')

/-- A character that can appear anywhere in a default-pattern token:
a brace or a member of [A-Z0-9]. -/
def sigmaChar (c : Char) : Bool :=
  c == '{' || c == '}' || isTokenChar c

/-- Whether needle occurs as a contiguous substring (RegExp test for a
literal pattern). -/
def occurs (needle : List Char) : List Char → Bool
  | [] => needle.isEmpty
  | c :: rest => needle.isPrefixOf (c :: rest) || occurs needle rest

/-- The core of String.replace with a global literal pattern, with the
replacement inserted verbatim: leftmost non-overlapping occurrences of
t are each replaced by v, scanning left to right, never rescanning
inserted replacement text.  This is a proof device; the embedding of
the source (replaceAll below) additionally expands the dollar patterns
of the replacement string and coincides with this function exactly when
v contains no dollar sign.  The fuel argument only drives structural
recursion; callers supply the input length, which is always
sufficient. -/
def replaceAllPlainF (t v : List Char) : Nat → List Char → List Char
  | _, [] => []
  | 0, s => s
  | fuel + 1, c :: rest =>
    if t ≠ [] ∧ t.isPrefixOf (c :: rest) then
      v ++ replaceAllPlainF t v fuel ((c :: rest).drop t.length)
    else
      c :: replaceAllPlainF t v fuel rest

/-- The substitution GetSubstitution of the ECMAScript specification,
applied to a replacement template for a pattern with no capture groups
(token strings contain no parentheses): scans the template for dollar
patterns, replacing a double dollar with one dollar, dollar-ampersand
with the matched string, and the dollar-backquote / dollar-quote forms
(written here with unicode escapes) with the portions of the subject
before and after the match; any other dollar sequence, including
dollar-digit for the nonexistent capture groups, stays literal. -/
def expandDollarF (t before after : List Char) : Nat → List Char → List Char
  | _, [] => []
  | 0, v => v
  | fuel + 1, c :: rest =>
    if c = '$' then
      match rest with
      | [] => [c]
      | c2 :: rest2 =>
        if c2 = '$' then c2 :: expandDollarF t before after fuel rest2
        else if c2 = '&' then t ++ expandDollarF t before after fuel rest2
        else if c2 = '\u0060' then
          before ++ expandDollarF t before after fuel rest2
        else if c2 = '\u0027' then
          after ++ expandDollarF t before after fuel rest2
        else c :: expandDollarF t before after fuel rest
    else c :: expandDollarF t before after fuel rest

/-- GetSubstitution over the whole replacement template (see
expandDollarF; the fuel only drives structural recursion and the
template length always suffices). -/
def expandDollar (t before after v : List Char) : List Char :=
  expandDollarF t before after v.length v

/-- JavaScript String.replace with a global literal pattern: leftmost
non-overlapping occurrences of t are each replaced by the replacement
template v expanded by GetSubstitution at that match site, scanning
left to right, never rescanning inserted replacement text.  The before
argument accumulates the consumed portion of the original subject
string, which the dollar-backquote pattern references. -/
def replaceAllF (t v : List Char) : Nat → List Char → List Char → List Char
  | _, _, [] => []
  | 0, _, s => s
  | fuel + 1, before, c :: rest =>
    if t ≠ [] ∧ t.isPrefixOf (c :: rest) then
      expandDollar t before ((c :: rest).drop t.length) v
        ++ replaceAllF t v fuel (before ++ t) ((c :: rest).drop t.length)
    else
      c :: replaceAllF t v fuel (before ++ [c]) rest

/-- String.replace with a global literal pattern (see replaceAllF). -/
def replaceAll (t v s : List Char) : List Char :=
  replaceAllF t v s.length [] s

/-- Attempt to match the default placeholder regex {{[A-Z0-9]+}} at the
head of the input: two braces, a maximal nonempty [A-Z0-9] run (greedy,
with no backtracking possible because a shorter run cannot be followed
by a brace), two braces.  Returns the token and the rest of the input
after it. -/
def matchAt (s : List Char) : Option (List Char × List Char) :=
  match s with
  | c1 :: c2 :: rest =>
    let run := rest.takeWhile isTokenChar
    let rest2 := rest.dropWhile isTokenChar
    if c1 = '{' ∧ c2 = '{' ∧ run ≠ [] ∧ 2 ≤ rest2.length ∧
        rest2.take 2 = ['}', '}'] then
      some ('{' :: '{' :: (run ++ ['}', '}']), rest2.drop 2)
    else none
  | _ => none

theorem matchAt_length {s tok r : List Char} (h : matchAt s = some (tok, r)) :
    r.length < s.length := by
  match s with
  | [] => simp [matchAt] at h
  | [c] => simp [matchAt] at h
  | c1 :: c2 :: rest =>
    simp only [matchAt] at h
    split at h
    · rename_i hc
      simp only [Option.some.injEq, Prod.mk.injEq] at h
      have hr : r = (rest.dropWhile isTokenChar).drop 2 := h.2.symm
      have hsplit : rest.takeWhile isTokenChar ++ rest.dropWhile isTokenChar
          = rest := List.takeWhile_append_dropWhile isTokenChar rest
      have hlen := congrArg List.length hsplit
      simp only [List.length_append] at hlen
      subst hr
      simp only [List.length_drop, List.length_cons]
      omega
    · exact absurd h (by simp)

/-- All matches of the default pattern with the g flag
(String.prototype.match): leftmost, non-overlapping, in order; on a
failed position the scan advances one character.  Fuel-driven structural
recursion; scanTokens supplies the input length, which is always
sufficient because every step strictly shortens the input. -/
def scanTokensF : Nat → List Char → List (List Char)
  | _, [] => []
  | 0, _ => []
  | fuel + 1, c :: rest =>
    match matchAt (c :: rest) with
    | some (tok, after) => tok :: scanTokensF fuel after
    | none => scanTokensF fuel rest

/-- All matches of the default global pattern (see scanTokensF). -/
def scanTokens (s : List Char) : List (List Char) :=
  scanTokensF s.length s

/-- A resolved pairing pushed onto foundMatches by the resolving loop. -/
structure MatchRecord where
  matchStr : List Char
  value : List Char
deriving DecidableEq

/-- Embeds foundMatches.includes(matchStr).  Array.prototype.includes
compares with SameValueZero; every element of foundMatches is a record
object while matchStr is a string, so the test is false at every
element. -/
def includesStr (foundMatches : List MatchRecord) (_s : List Char) : Bool :=
  foundMatches.any (fun _ => false)

/-- The forEach over varRegex for a single matched token: every variable
name is tested inside the token, a record is pushed for each hit (the
includes guard, see includesStr), and notFound is cleared. -/
def resolveStep (matchStr : List Char) :
    List (List Char × List Char) → List MatchRecord → Bool →
      List MatchRecord × Bool
  | [], fm, notFound => (fm, notFound)
  | kv :: rest, fm, notFound =>
    if occurs kv.1 matchStr then
      resolveStep matchStr rest
        (if includesStr fm matchStr then fm else fm ++ [⟨matchStr, kv.2⟩]) false
    else
      resolveStep matchStr rest fm notFound

/-- The filter over the match list: foundMatches accumulates as a side
effect of the callback, and the filter keeps the tokens for which no
variable matched (the unresolved ones). -/
def resolveAll (vars : List (List Char × List Char)) :
    List (List Char) → List MatchRecord → List (List Char) →
      List MatchRecord × List (List Char)
  | [], fm, unres => (fm, unres)
  | m :: rest, fm, unres =>
    let r := resolveStep m vars fm true
    resolveAll vars rest r.1 (if r.2 then unres ++ [m] else unres)

/-- The final rewriting loop: each found record is applied as a global
literal replacement over the file string, in record order. -/
def applyRecords (recs : List MatchRecord) (s : List Char) : List Char :=
  recs.foldl (fun acc r => replaceAll r.matchStr r.value acc) s

/-- Result of RegexMatch.flush: ok carries the emitted buffer, error
carries the unresolved tokens enumerated in the thrown message. -/
inductive FlushResult where
  | ok : List Char → FlushResult
  | error : List (List Char) → FlushResult
deriving DecidableEq

/-- RegexMatch.flush, parameterized by the match-scanning function the
configured pattern induces (scanTokens for the default pattern).
chunks = none models this.chunks never having been assigned. -/
def flushWith (scan : List Char → List (List Char))
    (vars : List (List Char × List Char))
    (chunks : Option (List (List Char))) : FlushResult :=
  match chunks with
  | none => .ok []
  | some cs =>
    let fileString := cs.foldl (· ++ ·) []
    let ms := scan fileString
    if ms.isEmpty then .ok fileString
    else
      let r := resolveAll vars ms [] []
      if r.2.isEmpty then .ok (applyRecords r.1 fileString)
      else .error r.2

/-- RegexMatch.flush with the default pattern {{[A-Z0-9]+}} (global). -/
def flush (vars : List (List Char × List Char))
    (chunks : Option (List (List Char))) : FlushResult :=
  flushWith scanTokens vars chunks

/-- RegexMatch.transform: appends the chunk to this.chunks, creating the
array on first use. -/
def transformChunk (chunk : List Char) (chunks : Option (List (List Char))) :
    Option (List (List Char)) :=
  some (chunks.getD [] ++ [chunk])

theorem includesStr_false (l : List MatchRecord) (s : List Char) :
    includesStr l s = false := by
  induction l with
  | nil => rfl
  | cons r rest ih => simp [includesStr]

theorem resolveStep_snd (m : List Char) (ks : List (List Char × List Char))
    (fm : List MatchRecord) (nf : Bool) :
    (resolveStep m ks fm nf).2 = (nf && !(ks.any fun kv => occurs kv.1 m)) := by
  induction ks generalizing fm nf with
  | nil => cases nf <;> simp [resolveStep]
  | cons kv rest ih =>
    by_cases h : occurs kv.1 m = true
    · cases nf <;> simp [resolveStep, h, ih]
    · simp only [Bool.not_eq_true] at h
      cases nf <;> simp [resolveStep, h, ih]

theorem resolveStep_fst (m : List Char) (ks : List (List Char × List Char))
    (fm : List MatchRecord) (nf : Bool) :
    (resolveStep m ks fm nf).1
      = fm ++ (ks.filter fun kv => occurs kv.1 m).map
          (fun kv => MatchRecord.mk m kv.2) := by
  induction ks generalizing fm nf with
  | nil => simp [resolveStep]
  | cons kv rest ih =>
    by_cases h : occurs kv.1 m = true
    · simp [resolveStep, h, includesStr_false, ih, List.filter_cons]
    · simp only [Bool.not_eq_true] at h
      simp [resolveStep, h, ih, List.filter_cons]

theorem resolveAll_snd (vars : List (List Char × List Char))
    (ms : List (List Char)) (fm : List MatchRecord) (u : List (List Char)) :
    (resolveAll vars ms fm u).2
      = u ++ ms.filter (fun m => !(vars.any fun kv => occurs kv.1 m)) := by
  induction ms generalizing fm u with
  | nil => simp [resolveAll]
  | cons m rest ih =>
    by_cases h : (vars.any fun kv => occurs kv.1 m) = true
    · simp [resolveAll, resolveStep_snd, h, ih, List.filter_cons]
    · simp only [Bool.not_eq_true] at h
      simp [resolveAll, resolveStep_snd, h, ih, List.filter_cons]

theorem resolveAll_fst (vars : List (List Char × List Char))
    (ms : List (List Char)) (fm : List MatchRecord) (u : List (List Char)) :
    (resolveAll vars ms fm u).1
      = fm ++ ms.flatMap (fun m =>
          (vars.filter fun kv => occurs kv.1 m).map
            (fun kv => MatchRecord.mk m kv.2)) := by
  induction ms generalizing fm u with
  | nil => simp [resolveAll]
  | cons m rest ih => simp [resolveAll, resolveStep_fst, ih]

/-- C10: for a file that delivers zero chunks to the transform, flush
never fails and emits a zero-length buffer, for every scanning pattern
and every variable set. -/
theorem C10_zero_chunks_ok (scan : List Char → List (List Char))
    (vars : List (List Char × List Char)) :
    flushWith scan vars none = .ok [] := rfl

/-- C5: the substitution transform is deterministic; two runs of flush
on the same chunk sequence with the same pattern and the same variable
set produce the same result. -/
theorem C5_flush_deterministic (scan : List Char → List (List Char))
    (vars : List (List Char × List Char))
    (chunks : Option (List (List Char))) (r₁ r₂ : FlushResult)
    (h₁ : flushWith scan vars chunks = r₁)
    (h₂ : flushWith scan vars chunks = r₂) : r₁ = r₂ :=
  h₁.symm.trans h₂

theorem C5_flush_deterministic_witness :
    FlushResult.ok "acme!".data = FlushResult.ok "acme!".data :=
  C5_flush_deterministic scanTokens [("NAME".data, "acme".data)]
    (some ["{{NAME}}!".data]) _ _ (by decide) (by decide)

/-- C3: content in which the default pattern finds no match passes
through flush unchanged, for every variable set. -/
theorem C3_no_tokens_identity (vars : List (List Char × List Char))
    (cs : List (List Char))
    (h : scanTokens (cs.foldl (· ++ ·) []) = []) :
    flush vars (some cs) = .ok (cs.foldl (· ++ ·) []) := by
  simp [flush, flushWith, h]

theorem C3_no_tokens_identity_witness :
    scanTokens (["hello ".data, "{world}".data].foldl (· ++ ·) []) = [] ∧
    flush [("NAME".data, "acme".data)] (some ["hello ".data, "{world}".data])
      = .ok "hello {world}".data :=
  ⟨by decide, C3_no_tokens_identity _ _ (by decide)⟩

/-- C4: evaluation of the resolving loop at content holding the same
token twice with one matching variable.  The match-record list records
the pairing twice, because the dedupe guard foundMatches.includes
compares record objects against a string and never fires; the claim
(and the comment in the source) say the pairing is recorded exactly
once per distinct token. -/
theorem C4_duplicate_records :
    resolveAll [("A".data, "x".data)] (scanTokens "{{A}} {{A}}".data) [] []
      = ([MatchRecord.mk "{{A}}".data "x".data,
          MatchRecord.mk "{{A}}".data "x".data], []) := by
  decide

/-- C1: when some scanned token matches no variable name, flush takes
the error branch before emitting anything, and the error enumerates
exactly the unresolved tokens. -/
theorem C1_unresolved_error (vars : List (List Char × List Char))
    (content : List Char)
    (h : ∃ t ∈ scanTokens content, ∀ kv ∈ vars, occurs kv.1 t = false) :
    ∃ l, flush vars (some [content]) = .error l ∧ l ≠ [] ∧
      ∀ x, x ∈ l ↔
        (x ∈ scanTokens content ∧ ∀ kv ∈ vars, occurs kv.1 x = false) := by
  obtain ⟨t, ht, hu⟩ := h
  have hpred : ∀ x, ((!(vars.any fun kv => occurs kv.1 x)) = true
      ↔ (∀ kv ∈ vars, occurs kv.1 x = false)) := by
    intro x
    simp [List.any_eq_true]
  have htL : t ∈ (scanTokens content).filter
      (fun m => !(vars.any fun kv => occurs kv.1 m)) :=
    List.mem_filter.mpr ⟨ht, (hpred t).mpr hu⟩
  refine ⟨(scanTokens content).filter
      (fun m => !(vars.any fun kv => occurs kv.1 m)), ?_, ?_, fun x => ?_⟩
  · have hms : (scanTokens content).isEmpty = false := by
      rcases hsc : scanTokens content with _ | ⟨a, b⟩
      · rw [hsc] at ht; cases ht
      · rfl
    have hfil : ((scanTokens content).filter
        (fun m => !(vars.any fun kv => occurs kv.1 m))).isEmpty = false := by
      rcases hf : (scanTokens content).filter
          (fun m => !(vars.any fun kv => occurs kv.1 m)) with _ | ⟨a, b⟩
      · rw [hf] at htL; cases htL
      · rfl
    simp [flush, flushWith, hms, resolveAll_snd, hfil]
  · intro h0
    rw [h0] at htL
    cases htL
  · rw [List.mem_filter, hpred x]

theorem C1_unresolved_error_witness :
    ∃ l, flush [("NAME".data, "acme".data)]
        (some ["{{NAME}} {{UNKNOWN}}".data]) = .error l ∧ l ≠ [] ∧
      ∀ x, x ∈ l ↔
        (x ∈ scanTokens "{{NAME}} {{UNKNOWN}}".data ∧
         ∀ kv ∈ [("NAME".data, "acme".data)], occurs kv.1 x = false) :=
  C1_unresolved_error _ _ (by decide)

theorem occurs_cons {t rest : List Char} (c : Char)
    (h : occurs t rest = true) : occurs t (c :: rest) = true := by
  simp [occurs, h]

theorem occurs_drop {t : List Char} :
    ∀ (n : Nat) (s : List Char), occurs t (s.drop n) = true →
      occurs t s = true := by
  intro n
  induction n with
  | zero => intro s h; simpa using h
  | succ n ih =>
    intro s h
    match s with
    | [] => simpa using h
    | c :: rest => exact occurs_cons c (ih rest h)

theorem occurs_append_sigma {t v : List Char}
    (htne : t ≠ []) (hts : ∀ c ∈ t, sigmaChar c = true)
    (hv : ∀ c ∈ v, sigmaChar c = false) (x : List Char) :
    occurs t (v ++ x) = occurs t x := by
  induction v with
  | nil => simp
  | cons c v' ih =>
    obtain ⟨t0, t', rfl⟩ := List.exists_cons_of_ne_nil htne
    have h0 : sigmaChar t0 = true := hts t0 (by simp)
    have hc : sigmaChar c = false := hv c (by simp)
    have hne : (t0 == c) = false := by
      rcases h : t0 == c with _ | _
      · rfl
      · rw [eq_of_beq h] at h0; rw [h0] at hc; cases hc
    have ih' := ih (fun d hd => hv d (by simp [hd]))
    simp only [List.cons_append, occurs, List.isPrefixOf, hne,
      Bool.false_and, Bool.false_or]
    exact ih'

theorem isPrefixOf_replaceAllPlainF {t' v : List Char}
    (hv : ∀ c ∈ v, sigmaChar c = false) (hvne : v ≠ []) :
    ∀ (fuel : Nat) (x s : List Char), (∀ c ∈ x, sigmaChar c = true) →
      x.isPrefixOf (replaceAllPlainF t' v fuel s) = true →
      x.isPrefixOf s = true := by
  intro fuel
  induction fuel with
  | zero =>
    intro x s hx h
    match s with
    | [] => simpa [replaceAllPlainF] using h
    | c :: rest => simpa [replaceAllPlainF] using h
  | succ fuel ih =>
    intro x s hx h
    match s with
    | [] => simpa [replaceAllPlainF] using h
    | c :: rest =>
      rw [replaceAllPlainF] at h
      split at h
      · match x with
        | [] => simp [List.isPrefixOf]
        | x0 :: x' =>
          obtain ⟨v0, v', rfl⟩ := List.exists_cons_of_ne_nil hvne
          have h0 : sigmaChar x0 = true := hx x0 (by simp)
          have hc : sigmaChar v0 = false := hv v0 (by simp)
          have hne : (x0 == v0) = false := by
            rcases hb : x0 == v0 with _ | _
            · rfl
            · rw [eq_of_beq hb] at h0; rw [h0] at hc; cases hc
          simp only [List.cons_append, List.isPrefixOf, hne,
            Bool.false_and] at h
          cases h
      · match x with
        | [] => simp [List.isPrefixOf]
        | x0 :: x' =>
          simp only [List.isPrefixOf, Bool.and_eq_true, beq_iff_eq] at h ⊢
          exact ⟨h.1, ih x' rest (fun d hd => hx d (by simp [hd])) h.2⟩

theorem occurs_replaceAllPlainF_self {t v : List Char}
    (htne : t ≠ []) (hts : ∀ c ∈ t, sigmaChar c = true)
    (hv : ∀ c ∈ v, sigmaChar c = false) (hvne : v ≠ []) :
    ∀ (fuel : Nat) (s : List Char), s.length ≤ fuel →
      occurs t (replaceAllPlainF t v fuel s) = false := by
  intro fuel
  induction fuel with
  | zero =>
    intro s hlen
    have hs : s = [] := List.length_eq_zero.mp (Nat.le_zero.mp hlen)
    subst hs
    simp [replaceAllPlainF, occurs, List.isEmpty_iff, htne]
  | succ fuel ih =>
    intro s hlen
    match s with
    | [] => simp [replaceAllPlainF, occurs, List.isEmpty_iff, htne]
    | c :: rest =>
      rw [replaceAllPlainF]
      split
      · rename_i hcond
        have hlt : 0 < t.length := List.length_pos.mpr htne
        have hdlen : ((c :: rest).drop t.length).length ≤ fuel := by
          simp only [List.length_drop, List.length_cons]
          simp only [List.length_cons] at hlen
          omega
        rw [occurs_append_sigma htne hts hv]
        exact ih _ hdlen
      · rename_i hcond
        have hrest : occurs t (replaceAllPlainF t v fuel rest) = false := by
          apply ih
          simp only [List.length_cons] at hlen
          omega
        obtain ⟨t0, t', rfl⟩ := List.exists_cons_of_ne_nil htne
        simp only [occurs, hrest, Bool.or_false]
        rcases hpre : (t0 :: t').isPrefixOf
            (c :: replaceAllPlainF (t0 :: t') v fuel rest) with _ | _
        · rfl
        · exfalso
          simp only [List.isPrefixOf, Bool.and_eq_true, beq_iff_eq] at hpre
          have h2 : t'.isPrefixOf rest = true :=
            isPrefixOf_replaceAllPlainF hv hvne fuel t' rest
              (fun d hd => hts d (by simp [hd])) hpre.2
          apply hcond
          refine ⟨htne, ?_⟩
          simp only [List.isPrefixOf, Bool.and_eq_true, beq_iff_eq]
          exact ⟨hpre.1, h2⟩

theorem occurs_replaceAllPlainF_imp {t t' v : List Char}
    (htne : t ≠ []) (hts : ∀ c ∈ t, sigmaChar c = true)
    (hv : ∀ c ∈ v, sigmaChar c = false) (hvne : v ≠ []) :
    ∀ (fuel : Nat) (s : List Char),
      occurs t (replaceAllPlainF t' v fuel s) = true → occurs t s = true := by
  intro fuel
  induction fuel with
  | zero =>
    intro s h
    match s with
    | [] => simpa [replaceAllPlainF] using h
    | c :: rest => simpa [replaceAllPlainF] using h
  | succ fuel ih =>
    intro s h
    match s with
    | [] => simpa [replaceAllPlainF] using h
    | c :: rest =>
      rw [replaceAllPlainF] at h
      split at h
      · rw [occurs_append_sigma htne hts hv] at h
        exact occurs_drop _ _ (ih _ h)
      · simp only [occurs, Bool.or_eq_true] at h ⊢
        rcases h with h | h
        · left
          obtain ⟨t0, t', rfl⟩ := List.exists_cons_of_ne_nil htne
          simp only [List.isPrefixOf, Bool.and_eq_true, beq_iff_eq] at h ⊢
          exact ⟨h.1, isPrefixOf_replaceAllPlainF hv hvne fuel t' rest
            (fun d hd => hts d (by simp [hd])) h.2⟩
        · right
          exact ih rest h

theorem expandDollarF_no_dollar (t before after : List Char) :
    ∀ (v : List Char), '$' ∉ v → ∀ (fuel : Nat),
      expandDollarF t before after fuel v = v := by
  intro v
  induction v with
  | nil => intro _ fuel; cases fuel <;> rfl
  | cons c rest ih =>
    intro hd fuel
    cases fuel with
    | zero => rfl
    | succ fuel =>
      have hc : ¬ c = '$' := fun he => hd (he ▸ List.mem_cons_self c rest)
      simp only [expandDollarF, if_neg hc]
      rw [ih (fun hm => hd (List.mem_cons_of_mem c hm)) fuel]

theorem expandDollar_no_dollar {v : List Char} (hd : '$' ∉ v)
    (t before after : List Char) : expandDollar t before after v = v :=
  expandDollarF_no_dollar t before after v hd v.length

theorem replaceAllF_eq_plain {t v : List Char} (hd : '$' ∉ v) :
    ∀ (fuel : Nat) (before s : List Char),
      replaceAllF t v fuel before s = replaceAllPlainF t v fuel s := by
  intro fuel
  induction fuel with
  | zero => intro before s; cases s <;> rfl
  | succ fuel ih =>
    intro before s
    match s with
    | [] => rfl
    | c :: rest =>
      by_cases h : t ≠ [] ∧ t.isPrefixOf (c :: rest)
      · rw [replaceAllF, replaceAllPlainF, if_pos h, if_pos h,
          expandDollar_no_dollar hd, ih]
      · rw [replaceAllF, replaceAllPlainF, if_neg h, if_neg h, ih]

theorem occurs_replaceAll_self {t v : List Char}
    (htne : t ≠ []) (hts : ∀ c ∈ t, sigmaChar c = true)
    (hv : ∀ c ∈ v, sigmaChar c = false) (hvne : v ≠ [])
    (hd : '$' ∉ v) (s : List Char) :
    occurs t (replaceAll t v s) = false := by
  rw [replaceAll, replaceAllF_eq_plain hd]
  exact occurs_replaceAllPlainF_self htne hts hv hvne s.length s
    (Nat.le_refl _)

theorem occurs_replaceAll_imp {t t' v : List Char}
    (htne : t ≠ []) (hts : ∀ c ∈ t, sigmaChar c = true)
    (hv : ∀ c ∈ v, sigmaChar c = false) (hvne : v ≠ [])
    (hd : '$' ∉ v) (s : List Char)
    (h : occurs t (replaceAll t' v s) = true) : occurs t s = true := by
  rw [replaceAll, replaceAllF_eq_plain hd] at h
  exact occurs_replaceAllPlainF_imp htne hts hv hvne s.length s h

theorem applyRecords_cons (r : MatchRecord) (recs : List MatchRecord)
    (s : List Char) :
    applyRecords (r :: recs) s
      = applyRecords recs (replaceAll r.matchStr r.value s) := rfl

theorem occurs_applyRecords_imp {t : List Char}
    (htne : t ≠ []) (hts : ∀ c ∈ t, sigmaChar c = true) :
    ∀ (recs : List MatchRecord),
      (∀ r ∈ recs, r.value ≠ [] ∧ (∀ c ∈ r.value, sigmaChar c = false) ∧
        '$' ∉ r.value) →
      ∀ s, occurs t (applyRecords recs s) = true → occurs t s = true := by
  intro recs
  induction recs with
  | nil => intro _ s h; simpa [applyRecords] using h
  | cons r rest ih =>
    intro hrec s h
    rw [applyRecords_cons] at h
    have hr := hrec r (by simp)
    exact occurs_replaceAll_imp htne hts hr.2.1 hr.1 hr.2.2 s
      (ih (fun q hq => hrec q (by simp [hq])) _ h)

theorem occurs_applyRecords_kill {t : List Char}
    (htne : t ≠ []) (hts : ∀ c ∈ t, sigmaChar c = true) :
    ∀ (recs : List MatchRecord),
      (∀ r ∈ recs, r.value ≠ [] ∧ (∀ c ∈ r.value, sigmaChar c = false) ∧
        '$' ∉ r.value) →
      (∃ r ∈ recs, r.matchStr = t) →
      ∀ s, occurs t (applyRecords recs s) = false := by
  intro recs
  induction recs with
  | nil => intro _ hmem s; obtain ⟨r, hr, _⟩ := hmem; cases hr
  | cons r rest ih =>
    intro hrec hmem s
    rw [applyRecords_cons]
    by_cases hr : r.matchStr = t
    · have hkill : occurs t (replaceAll r.matchStr r.value s) = false := by
        rw [hr]
        exact occurs_replaceAll_self htne hts (hrec r (by simp)).2.1
          (hrec r (by simp)).1 (hrec r (by simp)).2.2 s
      rcases hocc : occurs t
          (applyRecords rest (replaceAll r.matchStr r.value s)) with _ | _
      · rfl
      · exfalso
        have := occurs_applyRecords_imp htne hts rest
          (fun q hq => hrec q (by simp [hq])) _ hocc
        rw [this] at hkill
        cases hkill
    · obtain ⟨q, hq, hqt⟩ := hmem
      rcases List.mem_cons.mp hq with hq1 | hq1
      · exact absurd (hq1 ▸ hqt) hr
      · exact ih (fun p hp => hrec p (by simp [hp])) ⟨q, hq1, hqt⟩ _

theorem mem_takeWhile_pred {p : Char → Bool} :
    ∀ (l : List Char) (c : Char), c ∈ l.takeWhile p → p c = true := by
  intro l
  induction l with
  | nil => intro c h; cases h
  | cons a rest ih =>
    intro c h
    rw [List.takeWhile_cons] at h
    split at h
    · rcases List.mem_cons.mp h with h1 | h1
      · rename_i ha; exact h1 ▸ ha
      · exact ih c h1
    · cases h

theorem matchAt_shape {s tok r : List Char} (h : matchAt s = some (tok, r)) :
    tok ≠ [] ∧ ∀ c ∈ tok, sigmaChar c = true := by
  match s with
  | [] => simp [matchAt] at h
  | [c] => simp [matchAt] at h
  | c1 :: c2 :: rest =>
    simp only [matchAt] at h
    split at h
    · simp only [Option.some.injEq, Prod.mk.injEq] at h
      have htok : tok = '{' :: '{' :: (rest.takeWhile isTokenChar ++ ['}', '}']) :=
        h.1.symm
      subst htok
      refine ⟨by simp, ?_⟩
      intro c hcmem
      simp only [List.mem_cons, List.mem_append] at hcmem
      rcases hcmem with h1 | h1 | h1 | h1
      · subst h1; decide
      · subst h1; decide
      · have := mem_takeWhile_pred rest c h1
        simp [sigmaChar, this]
      · simp only [List.mem_cons, List.not_mem_nil, or_false] at h1
        rcases h1 with h1 | h1 <;> (subst h1; decide)
    · exact absurd h (by simp)

theorem scanTokensF_shape :
    ∀ (fuel : Nat) (s t : List Char), t ∈ scanTokensF fuel s →
      t ≠ [] ∧ ∀ c ∈ t, sigmaChar c = true := by
  intro fuel
  induction fuel with
  | zero =>
    intro s t h
    match s with
    | [] => simp [scanTokensF] at h
    | c :: rest => simp [scanTokensF] at h
  | succ fuel ih =>
    intro s t h
    match s with
    | [] => simp [scanTokensF] at h
    | c :: rest =>
      rw [scanTokensF] at h
      rcases hma : matchAt (c :: rest) with _ | ⟨tok, after⟩
      · rw [hma] at h
        exact ih rest t h
      · rw [hma] at h
        rcases List.mem_cons.mp h with h1 | h1
        · exact h1 ▸ matchAt_shape hma
        · exact ih after t h1

theorem scanTokens_shape {s t : List Char} (h : t ∈ scanTokens s) :
    t ≠ [] ∧ ∀ c ∈ t, sigmaChar c = true :=
  scanTokensF_shape s.length s t h

/-- C2 counterexample: a caller-supplied override pattern is compiled
without the g flag, so String.match returns only the first match; on
content whose every pattern-matching token matches some variable name,
the second token string survives in the emitted output. -/
theorem C2_counterexample :
    (∀ t ∈ scanTokens "{{A}} {{B}}".data,
       ∃ kv ∈ [("A".data, "x".data), ("B".data, "y".data)],
         occurs kv.1 t = true) ∧
    flushWith (fun s => (scanTokens s).take 1)
        [("A".data, "x".data), ("B".data, "y".data)]
        (some ["{{A}} {{B}}".data]) = .ok "x {{B}}".data ∧
    "{{B}}".data ∈ scanTokens "{{A}} {{B}}".data ∧
    occurs "{{B}}".data "x {{B}}".data = true := by
  decide

/-- C2 (amended): restricted to the default (global) pattern, because an
override loses the g flag and only its first match is found.  If every
token the pattern finds matches some variable name, flush succeeds; and
when every variable value is nonempty, avoids the token alphabet
(braces and [A-Z0-9]) — otherwise a replacement can splice a token back
together — and contains no dollar sign — otherwise a dollar pattern of
String.replace, such as dollar-ampersand, reinserts the matched
token — the emitted output contains no occurrence of any found
token. -/
theorem C2_all_resolved (vars : List (List Char × List Char))
    (content : List Char)
    (h1 : ∀ t ∈ scanTokens content, ∃ kv ∈ vars, occurs kv.1 t = true) :
    ∃ out, flush vars (some [content]) = .ok out ∧
      ((∀ kv ∈ vars, kv.2 ≠ [] ∧ (∀ c ∈ kv.2, sigmaChar c = false) ∧
          '$' ∉ kv.2) →
        ∀ t ∈ scanTokens content, occurs t out = false) := by
  by_cases hsc : scanTokens content = []
  · refine ⟨content, by simp [flush, flushWith, hsc], fun _ t ht => ?_⟩
    rw [hsc] at ht
    cases ht
  · have hms : (scanTokens content).isEmpty = false := by
      rcases h : scanTokens content with _ | ⟨a, b⟩
      · exact absurd h hsc
      · rfl
    have hfil : (scanTokens content).filter
        (fun m => !(vars.any fun kv => occurs kv.1 m)) = [] := by
      rw [List.filter_eq_nil_iff]
      intro a ha
      obtain ⟨kv, hkv, hocc⟩ := h1 a ha
      simp only [Bool.not_eq_true', Bool.not_eq_false, List.any_eq_true]
      exact ⟨kv, hkv, hocc⟩
    have hr2 : (resolveAll vars (scanTokens content) [] []).2 = [] := by
      rw [resolveAll_snd, hfil]
      rfl
    refine ⟨applyRecords (resolveAll vars (scanTokens content) [] []).1
      content, ?_, ?_⟩
    · simp [flush, flushWith, hms, hr2]
    · intro h2 t ht
      obtain ⟨htne, hts⟩ := scanTokens_shape ht
      have hrecs : ∀ q ∈ (resolveAll vars (scanTokens content) [] []).1,
          q.value ≠ [] ∧ (∀ c ∈ q.value, sigmaChar c = false) ∧
            '$' ∉ q.value := by
        intro q hq
        rw [resolveAll_fst] at hq
        simp only [List.nil_append, List.mem_flatMap, List.mem_map,
          List.mem_filter] at hq
        obtain ⟨m, _, kv, hkv, rfl⟩ := hq
        exact h2 kv hkv.1
      have hmem : ∃ q ∈ (resolveAll vars (scanTokens content) [] []).1,
          q.matchStr = t := by
        obtain ⟨kv, hkv, hocc⟩ := h1 t ht
        rw [resolveAll_fst]
        refine ⟨MatchRecord.mk t kv.2, ?_, rfl⟩
        simp only [List.nil_append, List.mem_flatMap, List.mem_map,
          List.mem_filter]
        exact ⟨t, ht, kv, ⟨hkv, hocc⟩, rfl⟩
      exact occurs_applyRecords_kill htne hts _ hrecs hmem content

theorem C2_all_resolved_witness :
    (∀ t ∈ scanTokens "# {{NAME}}\n{{DESCRIPTION}}".data,
       ∃ kv ∈ [("NAME".data, "acme".data), ("DESCRIPTION".data, "widgets".data)],
         occurs kv.1 t = true) ∧
    ∃ out, flush [("NAME".data, "acme".data), ("DESCRIPTION".data, "widgets".data)]
        (some ["# {{NAME}}\n{{DESCRIPTION}}".data]) = .ok out ∧
      ((∀ kv ∈ [("NAME".data, "acme".data), ("DESCRIPTION".data, "widgets".data)],
          kv.2 ≠ [] ∧ (∀ c ∈ kv.2, sigmaChar c = false) ∧ '$' ∉ kv.2) →
        ∀ t ∈ scanTokens "# {{NAME}}\n{{DESCRIPTION}}".data,
          occurs t out = false) :=
  ⟨by decide, C2_all_resolved _ _ (by decide)⟩

/-- Node path.basename for posix paths: trailing separators are ignored
and the portion after the last remaining separator is returned. -/
def basenameChars (p : List Char) : List Char :=
  ((p.reverse.dropWhile (fun c => c == '/')).takeWhile
    (fun c => !(c == '/'))).reverse

/-- The suffix of a base name starting at its last dot, when one
exists. -/
def fromLastDot : List Char → Option (List Char)
  | [] => none
  | c :: rest =>
    match fromLastDot rest with
    | some s => some s
    | none => if c = '.' then some (c :: rest) else none

/-- Node path.extname applied to a base name: empty when there is no
dot, when the only dot is the leading character, or when the base name
is exactly ".."; otherwise the suffix from the last dot (including the
dot). -/
def extnameOfBase (b : List Char) : List Char :=
  match fromLastDot b with
  | none => []
  | some s => if s = b then [] else if b = ['.', '.'] then [] else s

/-- The post-processing ext.match(/\.?(.+)/)[1] of getExtname: one
leading dot is stripped when at least one character follows it; on the
single-dot string the regex backtracks and the result is the dot
itself.  Reachable inputs are nonempty (on the empty string the source
would throw); base names containing a newline are outside the model
because the regex dot class excludes newlines. -/
def dotStrip (s : List Char) : List Char :=
  match s with
  | c :: c2 :: rest => if c = '.' then c2 :: rest else s
  | _ => s

/-- FileUtil.getExtname: path.extname, widened so that when extname
finds nothing the whole base name is used, then minus one leading
dot. -/
def getExtname (p : String) : String :=
  let b := basenameChars p.data
  let e := extnameOfBase b
  ⟨dotStrip (if e.isEmpty then b else e)⟩

/-- Extension names never transformed (TRANSFORM_BLACKLIST). -/
def TRANSFORM_BLACKLIST : List String := ["git"]

/-- Outcome of FileUtil.transformCopy's per-file dispatch. -/
inductive CopyAction where
  | skippedCopy
  | skippedTransform
  | transformed
deriving DecidableEq

/-- Whether the dispatch branch writes a destination file: the
blacklist branch resolves with null and writes nothing; the other two
branches copy bytes or stream the transform output to dest. -/
def copyWritesDest : CopyAction → Bool
  | .skippedCopy => false
  | .skippedTransform => true
  | .transformed => true

/-- The decision logic of FileUtil.transformCopy: the blacklist is
tested first and yields the resolve(null) no-op branch; otherwise
membership in the text-extension list decides between a plain byte
copy and streaming through the substitution transform. -/
def transformCopyAction (textExtensions : List String)
    (source : String) : CopyAction :=
  if TRANSFORM_BLACKLIST.contains (getExtname source) then .skippedCopy
  else if !(textExtensions.contains (getExtname source)) then .skippedTransform
  else .transformed

/-- C6: a source whose computed extension is blacklisted is skipped as
a successful no-op — no destination file — for every text-extension
list, so membership of the same extension in the text list is
irrelevant. -/
theorem C6_blacklist_skips (textExtensions : List String) (source : String)
    (h : getExtname source ∈ TRANSFORM_BLACKLIST) :
    transformCopyAction textExtensions source = .skippedCopy ∧
    copyWritesDest (transformCopyAction textExtensions source) = false := by
  have hg : getExtname source = "git" := by
    simpa [TRANSFORM_BLACKLIST] using h
  constructor <;> simp [transformCopyAction, hg, TRANSFORM_BLACKLIST,
    copyWritesDest]

theorem C6_blacklist_skips_witness :
    getExtname "template/.git" ∈ TRANSFORM_BLACKLIST ∧
    transformCopyAction ["git", "html"] "template/.git" = .skippedCopy ∧
    copyWritesDest (transformCopyAction ["git", "html"] "template/.git")
      = false :=
  ⟨by decide, (C6_blacklist_skips ["git", "html"] "template/.git"
      (by decide)).1,
    (C6_blacklist_skips ["git", "html"] "template/.git" (by decide)).2⟩

theorem takeWhile_eq_self_of_pred {p : Char → Bool} :
    ∀ (l : List Char), (∀ c ∈ l, p c = true) → l.takeWhile p = l := by
  intro l
  induction l with
  | nil => intro _; rfl
  | cons a rest ih =>
    intro h
    rw [List.takeWhile_cons, if_pos (h a (by simp)),
      ih (fun c hc => h c (by simp [hc]))]

theorem takeWhile_append_stop {p : Char → Bool} :
    ∀ (xs : List Char), (∀ c ∈ xs, p c = true) →
      ∀ (y : Char) (ys : List Char), p y = false →
        (xs ++ y :: ys).takeWhile p = xs := by
  intro xs
  induction xs with
  | nil =>
    intro _ y ys hy
    simp [List.takeWhile_cons, hy]
  | cons a rest ih =>
    intro h y ys hy
    rw [List.cons_append, List.takeWhile_cons, if_pos (h a (by simp)),
      ih (fun c hc => h c (by simp [hc])) y ys hy]

theorem basenameChars_no_slash {b : List Char} (hb : '/' ∉ b)
    (hne : b ≠ []) : basenameChars b = b := by
  obtain ⟨c, r, hrev⟩ : ∃ c r, b.reverse = c :: r := by
    rcases h : b.reverse with _ | ⟨c, r⟩
    · exact absurd (by simpa using congrArg List.reverse h) hne
    · exact ⟨c, r, rfl⟩
  have hmem : ∀ c2 ∈ b.reverse, (c2 == '/') = false := by
    intro c2 hc2
    have h1 : c2 ∈ b := List.mem_reverse.mp hc2
    have h2 : ¬ c2 = '/' := fun he => hb (he ▸ h1)
    simpa using h2
  have h1 : b.reverse.dropWhile (fun c => c == '/') = b.reverse := by
    rw [hrev]
    exact List.dropWhile_cons_of_neg
      (by simpa using hmem c (hrev ▸ List.mem_cons_self c r))
  have h2 : b.reverse.takeWhile (fun c => !(c == '/')) = b.reverse :=
    takeWhile_eq_self_of_pred _ (fun c2 hc2 => by simp [hmem c2 hc2])
  unfold basenameChars
  rw [h1, h2, List.reverse_reverse]

theorem basenameChars_dir {d b : List Char} (hb : '/' ∉ b) (hne : b ≠ []) :
    basenameChars (d ++ '/' :: b) = b := by
  have hrev : (d ++ '/' :: b).reverse = b.reverse ++ '/' :: d.reverse := by
    simp
  obtain ⟨c, r, hrevb⟩ : ∃ c r, b.reverse = c :: r := by
    rcases h : b.reverse with _ | ⟨c, r⟩
    · exact absurd (by simpa using congrArg List.reverse h) hne
    · exact ⟨c, r, rfl⟩
  have hcmem : c ∈ b := List.mem_reverse.mp (hrevb ▸ List.mem_cons_self c r)
  have hcslash : (c == '/') = false := by
    have : ¬ c = '/' := fun he => hb (he ▸ hcmem)
    simpa using this
  have hmem : ∀ c2 ∈ b.reverse, (fun x => !(x == '/')) c2 = true := by
    intro c2 hc2
    have h1 : c2 ∈ b := List.mem_reverse.mp hc2
    have h2 : ¬ c2 = '/' := fun he => hb (he ▸ h1)
    simpa using h2
  have h1 : (b.reverse ++ '/' :: d.reverse).dropWhile (fun c => c == '/')
      = b.reverse ++ '/' :: d.reverse := by
    rw [hrevb, List.cons_append]
    exact List.dropWhile_cons_of_neg (by simp [hcslash])
  have h2 : (b.reverse ++ '/' :: d.reverse).takeWhile (fun c => !(c == '/'))
      = b.reverse :=
    takeWhile_append_stop b.reverse hmem '/' d.reverse (by simp)
  unfold basenameChars
  rw [hrev, h1, h2, List.reverse_reverse]

theorem fromLastDot_none {b : List Char} (h : '.' ∉ b) :
    fromLastDot b = none := by
  induction b with
  | nil => rfl
  | cons c rest ih =>
    have hc : ¬ c = '.' := fun he => h (he ▸ List.mem_cons_self c rest)
    rw [fromLastDot, ih (fun hm => h (List.mem_cons_of_mem c hm))]
    simp [hc]

theorem fromLastDot_append {u v : List Char} (hv : '.' ∉ v) :
    fromLastDot (u ++ '.' :: v) = some ('.' :: v) := by
  induction u with
  | nil =>
    rw [List.nil_append, fromLastDot, fromLastDot_none hv]
    simp
  | cons c u' ih =>
    rw [List.cons_append, fromLastDot, ih]

/-- C7 (amended): for a nonempty slash-free base name b (and any path
that reaches it through a directory prefix), classification uses the
substring after the last dot whenever at least one character follows
that dot; a base name ending in its last dot classifies as "." (not as
the empty string); and when path.extname finds nothing (no dot, or a
dotfile whose only dot leads) the whole base name minus one leading dot
is used. -/
theorem C7_getExtname_amended (b : List Char) (hb : '/' ∉ b)
    (hne : b ≠ []) :
    (∀ d : List Char, getExtname ⟨d ++ '/' :: b⟩ = getExtname ⟨b⟩) ∧
    (∀ u v : List Char, b = u ++ '.' :: v → v ≠ [] → '.' ∉ v → u ≠ [] →
      getExtname ⟨b⟩ = ⟨v⟩) ∧
    (∀ u : List Char, b = u ++ ['.'] → u ≠ [] → getExtname ⟨b⟩ = ".") ∧
    ('.' ∉ b → getExtname ⟨b⟩ = ⟨b⟩) ∧
    (∀ w : List Char, b = '.' :: w → w ≠ [] → '.' ∉ w →
      getExtname ⟨b⟩ = ⟨w⟩) := by
  refine ⟨?_, ?_, ?_, ?_, ?_⟩
  · intro d
    simp only [getExtname]
    rw [basenameChars_dir hb hne, basenameChars_no_slash hb hne]
  · intro u v hbv hvne hv hu
    subst hbv
    have hext : extnameOfBase (u ++ '.' :: v) = '.' :: v := by
      unfold extnameOfBase
      rw [fromLastDot_append hv]
      have hsb : ¬ ('.' :: v = u ++ '.' :: v) := by
        intro he
        have he2 : ([] : List Char) ++ '.' :: v = u ++ '.' :: v := by
          simpa using he
        exact hu (List.append_cancel_right he2).symm
      have hdd : ¬ (u ++ '.' :: v = ['.', '.']) := by
        intro he
        have hlen := congrArg List.length he
        simp only [List.length_cons, List.length_append,
          List.length_nil] at hlen
        have hu1 : 0 < u.length := List.length_pos.mpr hu
        have hv1 : 0 < v.length := List.length_pos.mpr hvne
        omega
      simp [hsb, hdd]
    simp only [getExtname]
    rw [basenameChars_no_slash hb hne, hext]
    obtain ⟨v0, v', rfl⟩ := List.exists_cons_of_ne_nil hvne
    simp [dotStrip]
  · intro u hbu hu
    subst hbu
    have hext : extnameOfBase (u ++ ['.'])
        = if u ++ ['.'] = ['.', '.'] then [] else ['.'] := by
      unfold extnameOfBase
      rw [fromLastDot_append (by simp)]
      have hsb : ¬ (['.'] = u ++ ['.']) := by
        intro he
        have he2 : ([] : List Char) ++ ['.'] = u ++ ['.'] := by
          simpa using he
        exact hu (List.append_cancel_right he2).symm
      simp [hsb]
    by_cases hdd : u ++ ['.'] = ['.', '.']
    · simp only [getExtname]
      rw [basenameChars_no_slash hb hne, hext, if_pos hdd, hdd]
      simp [dotStrip]
    · simp only [getExtname]
      rw [basenameChars_no_slash hb hne, hext, if_neg hdd]
      simp [dotStrip]
  · intro hdot
    have hext : extnameOfBase b = [] := by
      unfold extnameOfBase
      rw [fromLastDot_none hdot]
    have hds : dotStrip b = b := by
      rcases b with _ | ⟨c, rest⟩
      · exact absurd rfl hne
      · rcases rest with _ | ⟨c2, r⟩
        · rfl
        · have hc : ¬ c = '.' :=
            fun he => hdot (he ▸ List.mem_cons_self c _)
          simp [dotStrip, hc]
    simp only [getExtname]
    rw [basenameChars_no_slash hb hne, hext]
    simp [hds]
  · intro w hbw hwne hw
    subst hbw
    have hfld : fromLastDot ('.' :: w) = some ('.' :: w) := by
      rw [fromLastDot, fromLastDot_none hw]
      simp
    have hext : extnameOfBase ('.' :: w) = [] := by
      unfold extnameOfBase
      rw [hfld]
      simp
    simp only [getExtname]
    rw [basenameChars_no_slash hb hne, hext]
    obtain ⟨w0, w', rfl⟩ := List.exists_cons_of_ne_nil hwne
    simp [dotStrip]

/-- C7 counterexample: a base name ending in a dot.  The substring of
"file." after its last dot is empty, but getExtname classifies it as
".": path.extname("file.") is "." and the regex strip keeps the single
dot. -/
theorem C7_counterexample :
    getExtname "file." = "." ∧ getExtname "file." ≠ "" := by
  decide

theorem C7_getExtname_amended_witness :
    getExtname "index.html" = "html" ∧
    getExtname "src/.gitignore" = "gitignore" := by
  constructor
  · exact (C7_getExtname_amended "index.html".data (by decide)
      (by decide)).2.1 "index".data "html".data (by decide) (by decide)
      (by decide) (by decide)
  · have h0 := (C7_getExtname_amended ".gitignore".data (by decide)
      (by decide)).1 "src".data
    have h5 := (C7_getExtname_amended ".gitignore".data (by decide)
      (by decide)).2.2.2.2 "gitignore".data (by decide) (by decide)
      (by decide)
    exact h0.trans h5

/-- A filesystem tree node: a leaf file or a directory with its
entries.  Models what fs.readdir with file types reveals level by
level. -/
inductive FsTree where
  | file : String → FsTree
  | dir : String → List FsTree → FsTree

/-- The entry name of a node. -/
def FsTree.nameOf : FsTree → String
  | .file n => n
  | .dir n _ => n

/-- dirent.isDirectory(). -/
def FsTree.isDir : FsTree → Bool
  | .file _ => false
  | .dir _ _ => true

mutual
/-- Number of nodes in a tree (at least 1); fuel for the splice loop. -/
def treeSize : FsTree → Nat
  | .file _ => 1
  | .dir _ cs => 1 + sizeList cs
/-- Total number of nodes in a list of trees. -/
def sizeList : List FsTree → Nat
  | [] => 0
  | t :: ts => treeSize t + sizeList ts
end

mutual
/-- Relative paths (as segment lists) of all leaf files of a tree,
including the node's own name as leading segment. -/
def leafPathsFrom : FsTree → List (List String)
  | .file n => [[n]]
  | .dir n cs => (leavesList cs).map (fun q => n :: q)
/-- Leaf paths of a list of sibling trees, in sibling order. -/
def leavesList : List FsTree → List (List String)
  | [] => []
  | t :: ts => leafPathsFrom t ++ leavesList ts
end

/-- Whether a list of entry names has no duplicates — true for the
children of a real directory. -/
def distinctNames : List String → Bool
  | [] => true
  | n :: rest => !(rest.contains n) && distinctNames rest

mutual
/-- Well-formedness of a tree: sibling names are distinct at every
level (true of every real directory tree). -/
def wfTree : FsTree → Bool
  | .file _ => true
  | .dir _ cs => distinctNames (cs.map FsTree.nameOf) && wfList cs
/-- Well-formedness of a list of sibling trees. -/
def wfList : List FsTree → Bool
  | [] => true
  | t :: ts => wfTree t && wfList ts
end

/-- A working-list element of the splice loop: the accumulated relative
path (subFile.name after the path.join of the enclosing directory
names) together with the underlying node. -/
structure Dirent where
  name : List String
  tree : FsTree

/-- readdir of a directory's children, with the enclosing relative path
joined onto every entry name. -/
def childDirents (n : List String) (cs : List FsTree) : List Dirent :=
  cs.map (fun c => ⟨n ++ [c.nameOf], c⟩)

/-- Total node count of the working list; the loop removes at least one
node per step, so this bounds the remaining steps. -/
def pendSize : List Dirent → Nat
  | [] => 0
  | d :: ds => treeSize d.tree + pendSize ds

/-- One pass of the inner for loop over the mutable files array.  The
index i sits at the boundary between acc (entries already passed over)
and the pending suffix; a directory at i is spliced out (splice(i--,1))
and its listing concatenated to the end of the array, which the same
pass visits later because the loop bound re-reads files.length.  Fuel
is pendSize, which strictly decreases at every step. -/
def forPassF : Nat → List Dirent → List Dirent → List Dirent
  | _, acc, [] => acc
  | 0, acc, p => acc ++ p
  | fuel + 1, acc, d :: rest =>
    match d.tree with
    | .file _ => forPassF fuel (acc ++ [d]) rest
    | .dir _ cs => forPassF fuel acc (rest ++ childDirents d.name cs)

/-- The containsDir helper: whether any dirent in the working list is a
directory. -/
def containsDir (files : List Dirent) : Bool :=
  files.any (fun d => d.tree.isDir)

/-- The outer while (containsDir(files)) loop, fuel-bounded; each
iteration strictly shrinks pendSize, so pendSize + 1 iterations always
suffice. -/
def expandF : Nat → List Dirent → List Dirent
  | 0, files => files
  | fuel + 1, files =>
    if containsDir files then expandF fuel (forPassF (pendSize files) [] files)
    else files

/-- The leaf paths a working-list entry will eventually contribute. -/
def direntLeaves (d : Dirent) : List (List String) :=
  match d.tree with
  | .file _ => [d.name]
  | .dir _ cs => (leavesList cs).map (fun q => d.name ++ q)

/-- FileUtil.getTemplateFilePaths: expand the root listing until no
directory entry remains, then join every name onto the base path. -/
def getTemplateFilePaths (basePath : List String)
    (rootFiles : List FsTree) : List (List String) :=
  let files := childDirents [] rootFiles
  (expandF (pendSize files + 1) files).map (fun d => basePath ++ d.name)

/-- FileUtil.getDirRecursive (the asynchronous variant): identical
splice-and-concat loop over the root listing of basePath. -/
def getDirRecursive (basePath : List String)
    (rootFiles : List FsTree) : List (List String) :=
  let files := childDirents [] rootFiles
  (expandF (pendSize files + 1) files).map (fun d => basePath ++ d.name)

/-- One pass of the inner for loop of the synchronous variant
getDirRecursiveSync (fs.readdirSync in place of the awaited wrapper). -/
def forPassSyncF : Nat → List Dirent → List Dirent → List Dirent
  | _, acc, [] => acc
  | 0, acc, p => acc ++ p
  | fuel + 1, acc, d :: rest =>
    match d.tree with
    | .file _ => forPassSyncF fuel (acc ++ [d]) rest
    | .dir _ cs => forPassSyncF fuel acc (rest ++ childDirents d.name cs)

/-- The outer while loop of the synchronous variant. -/
def expandSyncF : Nat → List Dirent → List Dirent
  | 0, files => files
  | fuel + 1, files =>
    if containsDir files then
      expandSyncF fuel (forPassSyncF (pendSize files) [] files)
    else files

/-- FileUtil.getDirRecursiveSync: the synchronous clone of the
splice-and-concat enumeration. -/
def getDirRecursiveSync (basePath : List String)
    (rootFiles : List FsTree) : List (List String) :=
  let files := childDirents [] rootFiles
  (expandSyncF (pendSize files + 1) files).map (fun d => basePath ++ d.name)

theorem treeSize_pos (t : FsTree) : 1 ≤ treeSize t := by
  cases t with
  | file n => simp [treeSize]
  | dir n cs => simp [treeSize]

theorem pendSize_cons (d : Dirent) (ds : List Dirent) :
    pendSize (d :: ds) = treeSize d.tree + pendSize ds := rfl

theorem pendSize_append (a b : List Dirent) :
    pendSize (a ++ b) = pendSize a + pendSize b := by
  induction a with
  | nil => simp [pendSize]
  | cons d ds ih => simp [pendSize_cons, ih]; omega

theorem pendSize_childDirents (n : List String) (cs : List FsTree) :
    pendSize (childDirents n cs) = sizeList cs := by
  induction cs with
  | nil => rfl
  | cons c cs' ih =>
    rw [show childDirents n (c :: cs')
        = ⟨n ++ [c.nameOf], c⟩ :: childDirents n cs' from rfl]
    rw [pendSize_cons, ih]
    rfl

theorem pendSize_eq_zero {p : List Dirent} (h : pendSize p = 0) : p = [] := by
  cases p with
  | nil => rfl
  | cons d ds =>
    exfalso
    have h1 := treeSize_pos d.tree
    rw [pendSize_cons] at h
    omega

theorem forPassF_noDir :
    ∀ (fuel : Nat) (acc p : List Dirent), pendSize p ≤ fuel →
      (∀ d ∈ acc, d.tree.isDir = false) →
      ∀ d ∈ forPassF fuel acc p, d.tree.isDir = false := by
  intro fuel
  induction fuel with
  | zero =>
    intro acc p hp hacc
    have h0 : p = [] := pendSize_eq_zero (Nat.le_zero.mp hp)
    subst h0
    simpa [forPassF] using hacc
  | succ fuel ih =>
    intro acc p hp hacc
    match p with
    | [] => simpa [forPassF] using hacc
    | d :: rest =>
      rw [pendSize_cons] at hp
      have hts := treeSize_pos d.tree
      match hd : d.tree with
      | .file nm =>
        rw [show forPassF (fuel + 1) acc (d :: rest)
            = forPassF fuel (acc ++ [d]) rest from by rw [forPassF, hd]]
        refine ih (acc ++ [d]) rest (by omega) ?_
        intro e he
        rcases List.mem_append.mp he with he1 | he1
        · exact hacc e he1
        · have : e = d := by simpa using he1
          rw [this, hd]
          rfl
      | .dir nm cs =>
        rw [show forPassF (fuel + 1) acc (d :: rest)
            = forPassF fuel acc (rest ++ childDirents d.name cs) from by
          rw [forPassF, hd]]
        refine ih acc _ ?_ hacc
        rw [pendSize_append, pendSize_childDirents]
        rw [hd] at hp
        rw [show treeSize (FsTree.dir nm cs) = 1 + sizeList cs from rfl] at hp
        omega

theorem direntLeaves_child (n : List String) (c : FsTree) :
    direntLeaves ⟨n ++ [c.nameOf], c⟩
      = (leafPathsFrom c).map (fun q => n ++ q) := by
  cases c with
  | file nm => simp [direntLeaves, leafPathsFrom, FsTree.nameOf]
  | dir nm cs =>
    simp only [direntLeaves, leafPathsFrom, FsTree.nameOf, List.map_map]
    apply List.map_congr_left
    intro q _
    simp

theorem childDirents_flatMap (n : List String) (cs : List FsTree) :
    (childDirents n cs).flatMap direntLeaves
      = (leavesList cs).map (fun q => n ++ q) := by
  induction cs with
  | nil => rfl
  | cons c cs' ih =>
    rw [show childDirents n (c :: cs')
        = ⟨n ++ [c.nameOf], c⟩ :: childDirents n cs' from rfl]
    rw [List.flatMap_cons, direntLeaves_child, ih]
    rw [show leavesList (c :: cs') = leafPathsFrom c ++ leavesList cs'
        from rfl]
    rw [List.map_append]

theorem forPassF_leaves :
    ∀ (fuel : Nat) (acc p : List Dirent), pendSize p ≤ fuel →
      List.Perm ((forPassF fuel acc p).flatMap direntLeaves)
        ((acc ++ p).flatMap direntLeaves) := by
  intro fuel
  induction fuel with
  | zero =>
    intro acc p hp
    have h0 : p = [] := pendSize_eq_zero (Nat.le_zero.mp hp)
    subst h0
    simp [forPassF]
  | succ fuel ih =>
    intro acc p hp
    match p with
    | [] => simp [forPassF]
    | d :: rest =>
      rw [pendSize_cons] at hp
      have hts := treeSize_pos d.tree
      match hd : d.tree with
      | .file nm =>
        rw [show forPassF (fuel + 1) acc (d :: rest)
            = forPassF fuel (acc ++ [d]) rest from by rw [forPassF, hd]]
        have h1 := ih (acc ++ [d]) rest (by omega)
        rw [show (acc ++ [d]) ++ rest = acc ++ d :: rest from by
          simp] at h1
        exact h1
      | .dir nm cs =>
        rw [show forPassF (fuel + 1) acc (d :: rest)
            = forPassF fuel acc (rest ++ childDirents d.name cs) from by
          rw [forPassF, hd]]
        have hsz : pendSize (rest ++ childDirents d.name cs) ≤ fuel := by
          rw [pendSize_append, pendSize_childDirents]
          rw [hd] at hp
          rw [show treeSize (FsTree.dir nm cs) = 1 + sizeList cs from rfl] at hp
          omega
        have h1 := ih acc _ hsz
        refine h1.trans ?_
        have hdl : direntLeaves d
            = (childDirents d.name cs).flatMap direntLeaves := by
          rw [childDirents_flatMap]
          rw [show direntLeaves d = match d.tree with
              | .file _ => [d.name]
              | .dir _ cs => (leavesList cs).map (fun q => d.name ++ q)
            from rfl, hd]
        simp only [List.flatMap_append, List.flatMap_cons, hdl]
        exact (List.perm_append_comm.append_left _)

theorem containsDir_eq_false {files : List Dirent}
    (h : ∀ d ∈ files, d.tree.isDir = false) : containsDir files = false := by
  rw [containsDir, List.any_eq_false]
  intro d hd
  simp [h d hd]

theorem expandF_of_noDir :
    ∀ (fuel : Nat) (files : List Dirent),
      (∀ d ∈ files, d.tree.isDir = false) → expandF fuel files = files := by
  intro fuel
  induction fuel with
  | zero => intro files _; rfl
  | succ fuel _ =>
    intro files h
    simp [expandF, containsDir_eq_false h]

theorem expand_spec (files : List Dirent) :
    (∀ d ∈ expandF (pendSize files + 1) files, d.tree.isDir = false) ∧
    List.Perm ((expandF (pendSize files + 1) files).flatMap direntLeaves)
      (files.flatMap direntLeaves) := by
  by_cases hc : containsDir files = true
  · have h1 : ∀ d ∈ forPassF (pendSize files) [] files,
        d.tree.isDir = false :=
      forPassF_noDir _ [] files (Nat.le_refl _) (by intro d hd; cases hd)
    have h2 : expandF (pendSize files + 1) files
        = forPassF (pendSize files) [] files := by
      rw [expandF, if_pos hc, expandF_of_noDir _ _ h1]
    constructor
    · rw [h2]; exact h1
    · rw [h2]
      have h3 := forPassF_leaves (pendSize files) [] files (Nat.le_refl _)
      simpa using h3
  · have hfalse : containsDir files = false := by
      simpa using hc
    have hnod : ∀ d ∈ files, d.tree.isDir = false := by
      rw [containsDir, List.any_eq_false] at hfalse
      intro d hd
      simpa using hfalse d hd
    rw [show expandF (pendSize files + 1) files = files from by
      simp [expandF, hfalse]]
    exact ⟨hnod, List.Perm.refl _⟩

theorem flatMap_eq_map_name :
    ∀ (l : List Dirent), (∀ d ∈ l, d.tree.isDir = false) →
      l.flatMap direntLeaves = l.map (fun d => d.name) := by
  intro l
  induction l with
  | nil => intro _; rfl
  | cons d ds ih =>
    intro h
    have hd := h d (by simp)
    match htree : d.tree with
    | .file nm =>
      rw [List.flatMap_cons, List.map_cons,
        show direntLeaves d = match d.tree with
          | .file _ => [d.name]
          | .dir _ cs => (leavesList cs).map (fun q => d.name ++ q)
        from rfl, htree, ih (fun e he => h e (by simp [he]))]
      rfl
    | .dir nm cs =>
      rw [htree] at hd
      cases hd

theorem and_eq_true_split {a b : Bool} (h : (a && b) = true) :
    a = true ∧ b = true := by
  simp only [Bool.and_eq_true] at h
  exact h

theorem leafPathsFrom_head {t : FsTree} {q : List String}
    (h : q ∈ leafPathsFrom t) : ∃ r, q = t.nameOf :: r := by
  cases t with
  | file n =>
    have : q = [n] := by simpa [leafPathsFrom] using h
    exact ⟨[], by simpa [FsTree.nameOf] using this⟩
  | dir n cs =>
    rw [show leafPathsFrom (FsTree.dir n cs)
        = (leavesList cs).map (fun q => n :: q) from rfl] at h
    obtain ⟨p, _, hp⟩ := List.mem_map.mp h
    exact ⟨p, by simpa [FsTree.nameOf] using hp.symm⟩

theorem mem_leavesList {q : List String} :
    ∀ {ts : List FsTree}, q ∈ leavesList ts →
      ∃ u ∈ ts, q ∈ leafPathsFrom u := by
  intro ts
  induction ts with
  | nil => intro h; cases h
  | cons t ts' ih =>
    intro h
    rw [show leavesList (t :: ts') = leafPathsFrom t ++ leavesList ts'
        from rfl] at h
    rcases List.mem_append.mp h with h1 | h1
    · exact ⟨t, by simp, h1⟩
    · obtain ⟨u, hu, hq⟩ := ih h1
      exact ⟨u, by simp [hu], hq⟩

theorem distinctNames_cons {x : String} {l : List String}
    (h : distinctNames (x :: l) = true) :
    l.contains x = false ∧ distinctNames l = true := by
  rw [show distinctNames (x :: l) = (!(l.contains x) && distinctNames l)
      from rfl] at h
  obtain ⟨h1, h2⟩ := and_eq_true_split h
  exact ⟨by simpa using h1, h2⟩

theorem sizeList_cons (t : FsTree) (ts : List FsTree) :
    sizeList (t :: ts) = treeSize t + sizeList ts := rfl

theorem wfList_cons {t : FsTree} {ts : List FsTree}
    (h : wfList (t :: ts) = true) : wfTree t = true ∧ wfList ts = true := by
  rw [show wfList (t :: ts) = (wfTree t && wfList ts) from rfl] at h
  exact and_eq_true_split h

theorem leavesList_nodup :
    ∀ (n : Nat) (cs : List FsTree), sizeList cs ≤ n →
      distinctNames (cs.map FsTree.nameOf) = true → wfList cs = true →
      (leavesList cs).Nodup := by
  intro n
  induction n using Nat.strong_induction_on with
  | _ n ih =>
    intro cs hsz hdn hwf
    match cs with
    | [] => simp [leavesList]
    | t :: ts =>
      rw [sizeList_cons] at hsz
      have hts1 := treeSize_pos t
      obtain ⟨hwt, hwts⟩ := wfList_cons hwf
      rw [List.map_cons] at hdn
      obtain ⟨hcont, hdn'⟩ := distinctNames_cons hdn
      rw [show leavesList (t :: ts) = leafPathsFrom t ++ leavesList ts
          from rfl]
      apply List.Nodup.append
      · match htree : t with
        | .file nm => simp [leafPathsFrom]
        | .dir nm cs2 =>
          rw [show leafPathsFrom (FsTree.dir nm cs2)
              = (leavesList cs2).map (fun q => nm :: q) from rfl]
          rw [show wfTree (FsTree.dir nm cs2)
              = (distinctNames (cs2.map FsTree.nameOf) && wfList cs2)
            from rfl] at hwt
          obtain ⟨hdn2, hwf2⟩ := and_eq_true_split hwt
          have hsz2 : sizeList cs2 < n := by
            rw [show treeSize (FsTree.dir nm cs2) = 1 + sizeList cs2
                from rfl] at hsz
            omega
          have hinner := ih (sizeList cs2) hsz2 cs2 (Nat.le_refl _) hdn2 hwf2
          exact hinner.map (fun a b hab => by simpa using hab)
      · have hsz3 : sizeList ts < n := by omega
        exact ih (sizeList ts) hsz3 ts (Nat.le_refl _) hdn' hwts
      · intro q hq1 hq2
        obtain ⟨r, hr⟩ := leafPathsFrom_head hq1
        obtain ⟨u, hu, hq3⟩ := mem_leavesList hq2
        obtain ⟨r2, hr2⟩ := leafPathsFrom_head hq3
        have hname : t.nameOf = u.nameOf := by
          rw [hr] at hr2
          exact (List.cons.injEq _ _ _ _ ▸ hr2).1
        have hmem : t.nameOf ∈ ts.map FsTree.nameOf :=
          List.mem_map.mpr ⟨u, hu, hname.symm⟩
        rw [← List.elem_iff] at hmem
        rw [show (ts.map FsTree.nameOf).contains t.nameOf
            = (ts.map FsTree.nameOf).elem t.nameOf from rfl] at hcont
        rw [hmem] at hcont
        cases hcont

/-- C8: the splice-and-concat enumeration terminates (it is a total
function of the tree) and returns exactly the leaf paths of the tree:
as a multiset it equals the leaf-path list (so every leaf appears
exactly once and no directory path appears), and when sibling names
are distinct at every level — true of every real directory tree — the
result has no duplicates. -/
theorem C8_enumerates_leaves (basePath : List String)
    (rootFiles : List FsTree) :
    List.Perm (getTemplateFilePaths basePath rootFiles)
      ((leavesList rootFiles).map (fun q => basePath ++ q)) ∧
    (distinctNames (rootFiles.map FsTree.nameOf) = true →
      wfList rootFiles = true →
      (getTemplateFilePaths basePath rootFiles).Nodup) := by
  have hspec := expand_spec (childDirents [] rootFiles)
  have hmap : getTemplateFilePaths basePath rootFiles
      = ((expandF (pendSize (childDirents [] rootFiles) + 1)
          (childDirents [] rootFiles)).map (fun d => d.name)).map
            (fun q => basePath ++ q) := by
    rw [getTemplateFilePaths, List.map_map]
    rfl
  have hperm0 : List.Perm
      ((expandF (pendSize (childDirents [] rootFiles) + 1)
        (childDirents [] rootFiles)).map (fun d => d.name))
      (leavesList rootFiles) := by
    rw [← flatMap_eq_map_name _ hspec.1]
    have h3 : (childDirents [] rootFiles).flatMap direntLeaves
        = leavesList rootFiles := by
      rw [childDirents_flatMap]
      simp
    rw [← h3]
    exact hspec.2
  constructor
  · rw [hmap]
    exact hperm0.map _
  · intro hdn hwf
    have hnodup : (leavesList rootFiles).Nodup :=
      leavesList_nodup (sizeList rootFiles) rootFiles (Nat.le_refl _) hdn hwf
    have hnodup2 : ((leavesList rootFiles).map
        (fun q => basePath ++ q)).Nodup :=
      hnodup.map (fun x y hxy => List.append_cancel_left hxy)
    rw [hmap]
    exact ((hperm0.map (fun q => basePath ++ q)).nodup_iff).mpr hnodup2

theorem C8_enumerates_leaves_witness :
    List.Perm
      (getTemplateFilePaths ["tpl"]
        [.file "a.txt",
         .dir "sub" [.file "b.txt", .dir "deep" [.file "c.txt"]],
         .file "d.txt"])
      ((leavesList
        [.file "a.txt",
         .dir "sub" [.file "b.txt", .dir "deep" [.file "c.txt"]],
         .file "d.txt"]).map (fun q => ["tpl"] ++ q)) ∧
    (getTemplateFilePaths ["tpl"]
      [.file "a.txt",
       .dir "sub" [.file "b.txt", .dir "deep" [.file "c.txt"]],
       .file "d.txt"]).Nodup :=
  ⟨(C8_enumerates_leaves ["tpl"] _).1,
   (C8_enumerates_leaves ["tpl"] _).2 (by decide) (by decide)⟩

theorem forPassSyncF_eq :
    ∀ (fuel : Nat) (acc p : List Dirent),
      forPassSyncF fuel acc p = forPassF fuel acc p := by
  intro fuel
  induction fuel with
  | zero => intro acc p; cases p <;> rfl
  | succ fuel ih =>
    intro acc p
    match p with
    | [] => rfl
    | d :: rest =>
      match hd : d.tree with
      | .file nm =>
        rw [show forPassSyncF (fuel + 1) acc (d :: rest)
            = forPassSyncF fuel (acc ++ [d]) rest from by
          rw [forPassSyncF, hd]]
        rw [show forPassF (fuel + 1) acc (d :: rest)
            = forPassF fuel (acc ++ [d]) rest from by rw [forPassF, hd]]
        exact ih _ _
      | .dir nm cs =>
        rw [show forPassSyncF (fuel + 1) acc (d :: rest)
            = forPassSyncF fuel acc (rest ++ childDirents d.name cs) from by
          rw [forPassSyncF, hd]]
        rw [show forPassF (fuel + 1) acc (d :: rest)
            = forPassF fuel acc (rest ++ childDirents d.name cs) from by
          rw [forPassF, hd]]
        exact ih _ _

theorem expandSyncF_eq :
    ∀ (fuel : Nat) (files : List Dirent),
      expandSyncF fuel files = expandF fuel files := by
  intro fuel
  induction fuel with
  | zero => intro files; rfl
  | succ fuel ih =>
    intro files
    rw [expandSyncF, expandF, forPassSyncF_eq]
    by_cases hc : containsDir files = true
    · rw [if_pos hc, if_pos hc, ih]
    · rw [if_neg hc, if_neg hc]

/-- C9: the synchronous and asynchronous directory enumerations agree
on every input tree: the same splice loop over the same readdir data
yields the same path list. -/
theorem C9_sync_async_equal (basePath : List String)
    (rootFiles : List FsTree) :
    getDirRecursive basePath rootFiles
      = getDirRecursiveSync basePath rootFiles := by
  rw [getDirRecursive, getDirRecursiveSync, expandSyncF_eq]
